import Mathlib

/-!
Verification of the von Mises sampler in
src/@VonMisesMixture/private/sampleVonMisesMex.c (ratio-of-uniforms
rejection sampling after Barabesi 1995).

The C code is real-valued numerics; it is embedded over the real numbers.
The pseudo-random source (successive calls to the C rand function,
divided by RAND_MAX) is modelled as a stream u : Nat -> Real of draws,
and the unbounded rejection loop is given fuel: with fuel n it performs
at most n iterations and reports failure to accept as Option.none.
-/

open Real Filter

noncomputable section

/-- The two-argument arctangent, used by the C code as atan2(y, x): the
argument of the complex number x + y i, valued in the interval (-pi, pi]. -/
def atan2 (y x : ℝ) : ℝ := Complex.arg (x + y * Complex.I)

/-- The sampling parameter computed once per call from kappa
(lines 56-62 of the C source). -/
def samplingParameter (kappa : ℝ) : ℝ :=
  if kappa > 1.3 then 1 / Real.sqrt kappa else Real.pi * Real.exp (-kappa)

/-- The candidate angle computed in each loop iteration from the two
uniform draws (line 71 of the C source). -/
def candidateAngle (s u1 u2 : ℝ) : ℝ := s * (2 * u2 - 1) / u1

/-- One iteration of the rejection loop (lines 65-90 of the C source):
some angle means the iteration accepts the candidate (break), none means
it rejects and the loop retries (continue). -/
def loopDecide (kappa s u1 u2 : ℝ) : Option ℝ :=
  if |candidateAngle s u1 u2| > Real.pi then none
  else if kappa * candidateAngle s u1 u2 ^ 2 < 4 - 4 * u1 then
    some (candidateAngle s u1 u2)
  else if kappa * Real.cos (candidateAngle s u1 u2) <
      2 * Real.log u1 + kappa then none
  else some (candidateAngle s u1 u2)

/-- The value written to the output vector for an accepted angle
(line 92 of the C source). -/
def emit (mu angle : ℝ) : ℝ := atan2 (Real.sin (angle + mu)) (Real.cos (angle + mu))

/-- The rejection loop for one output sample: starting at position idx of
the draw stream, retry until an iteration accepts, returning the accepted
angle and the next unused stream position; none when fuel iterations all
reject. -/
def sampleOne (kappa s : ℝ) (u : ℕ → ℝ) : ℕ → ℕ → Option (ℝ × ℕ)
  | _, 0 => none
  | idx, fuel + 1 =>
    match loopDecide kappa s (u idx) (u (idx + 1)) with
    | some a => some (a, idx + 2)
    | none => sampleOne kappa s u (idx + 2) fuel

/-- The outer for-loop of the C sample function: produce n outputs, each by
running the rejection loop and emitting the recentred, wrapped angle. -/
def sampleMany (mu kappa s : ℝ) (u : ℕ → ℝ) : ℕ → ℕ → ℕ → Option (List ℝ)
  | _, 0, _ => some []
  | idx, n + 1, fuel =>
    match sampleOne kappa s u idx fuel with
    | none => none
    | some (a, idx2) =>
      match sampleMany mu kappa s u idx2 n fuel with
      | none => none
      | some rest => some (emit mu a :: rest)

/-- The C function sample(mu, kappa, angles, numSamples): computes the
sampling parameter once, then fills the output vector. -/
def sample (mu kappa : ℝ) (u : ℕ → ℝ) (numSamples fuel : ℕ) : Option (List ℝ) :=
  sampleMany mu kappa (samplingParameter kappa) u 0 numSamples fuel

/-- A uniform draw as computed on lines 67-68 of the C source:
(double) rand() / (double) RAND_MAX, where rand() returns an integer r
with 0 <= r <= RAND_MAX. -/
def toUniform (r RMAX : ℕ) : ℝ := (r : ℝ) / (RMAX : ℝ)

/-- The error identifiers raised by mexFunction via mexErrMsgIdAndTxt
for the three parameter checks (lines 118-148 of the C source). -/
inductive MexError where
  | notScalar : MexError
  | notRealPositiveScalar : MexError
  | notIntPositiveScalar : MexError
deriving DecidableEq

/-- Validation and truncation of the optional third argument
(lines 134-149 of the C source): absent means the default 1; a present
scalar c errors when c <= 0 and is otherwise cast to int, which for
positive c truncates to its floor. -/
def checkNumSamples (count : Option ℝ) : Except MexError ℕ :=
  match count with
  | none => Except.ok 1
  | some c =>
    if c ≤ 0 then Except.error MexError.notIntPositiveScalar
    else Except.ok ⌊c⌋₊

/-- The mexFunction entry point (lines 97-162 of the C source) on scalar
double inputs: validate mu, then kappa, then the optional count, and only
then run the sampler; errors abort before any sampling. -/
def mexFunction (mu kappa : ℝ) (count : Option ℝ) (u : ℕ → ℝ) (fuel : ℕ) :
    Except MexError (Option (List ℝ)) :=
  if mu < -Real.pi ∨ mu > Real.pi then Except.error MexError.notScalar
  else if kappa < 0 then Except.error MexError.notRealPositiveScalar
  else
    match checkNumSamples count with
    | Except.error e => Except.error e
    | Except.ok n => Except.ok (sample mu kappa u n fuel)

/-- A concrete draw stream used to exhibit reachable accepting runs:
u1 = 1 and u2 = 1/2 in every iteration, so every candidate angle is 0 and
is accepted in the first iteration whatever kappa is. -/
def wStream : ℕ → ℝ := fun n => if n % 2 = 0 then 1 else 1 / 2

/-- Modelled from the spec: the C source seeds a global generator from
wall-clock time and CPU ticks inside sample (line 54), so no explicit
seed parameter exists in the code; the spec requires the random source to
be seedable for reproducibility, modelled here as a family of draw
streams indexed by the seed. -/
def seededStream (gen : ℕ → ℕ → ℝ) (seed : ℕ) : ℕ → ℝ := gen seed

/-- Modelled from the spec: an invocation of the sampler whose uniform
random source is fixed by an explicit seed. -/
def generateSeeded (gen : ℕ → ℕ → ℝ) (seed : ℕ) (mu kappa : ℝ)
    (numSamples fuel : ℕ) : Option (List ℝ) :=
  sample mu kappa (seededStream gen seed) numSamples fuel

/-- The set of rand pairs (r1, r2), each drawn from 0..RMAX, whose
uniforms r1/RMAX, r2/RMAX are rejected by one iteration of the loop. -/
def rejPairs (kappa s : ℝ) (RMAX : ℕ) : Finset (Fin (RMAX + 1) × Fin (RMAX + 1)) :=
  Finset.univ.filter
    (fun p => loopDecide kappa s (toUniform p.1 RMAX) (toUniform p.2 RMAX) = none)

/-- The draw prefixes of n rand pairs, one pair per loop iteration, on
which every one of the n iterations rejects. -/
def rejPrefixes (kappa s : ℝ) (RMAX n : ℕ) :
    Finset (Fin n → Fin (RMAX + 1) × Fin (RMAX + 1)) :=
  Fintype.piFinset fun _ => rejPairs kappa s RMAX

/-- The probability, under n iterations of two fresh uniform rand draws
from 0..RMAX each, that the loop has not accepted after n iterations: the
number of all-rejecting prefixes over the (RMAX+1)^(2n) equally likely
prefixes. -/
def noAcceptFrac (kappa s : ℝ) (RMAX n : ℕ) : ℝ :=
  ((rejPrefixes kappa s RMAX n).card : ℝ) / ((RMAX + 1 : ℝ) ^ (2 * n))

/-- The draw stream obtained by laying out n rand pairs consecutively:
position 2i holds the first and position 2i+1 the second uniform of
pair i. -/
def streamOf {n RMAX : ℕ} (f : Fin n → Fin (RMAX + 1) × Fin (RMAX + 1)) : ℕ → ℝ :=
  fun m =>
    if h : m / 2 < n then
      if m % 2 = 0 then toUniform (f ⟨m / 2, h⟩).1 RMAX
      else toUniform (f ⟨m / 2, h⟩).2 RMAX
    else 0

/-- Acceptance predicate for one loop iteration, following the spec text:
reject if the candidate angle is outside [-pi, pi]; accept if
kappa times angle squared is below 4 - 4 u1; otherwise reject if
kappa cos angle is below 2 ln u1 + kappa; otherwise accept. -/
def specAccepts (kappa s u1 u2 : ℝ) : Prop :=
  |s * (2 * u2 - 1) / u1| ≤ Real.pi ∧
    (kappa * (s * (2 * u2 - 1) / u1) ^ 2 < 4 - 4 * u1 ∨
      2 * Real.log u1 + kappa ≤ kappa * Real.cos (s * (2 * u2 - 1) / u1))

/-- C1: for every kappa >= 0 and candidate draw (u1, u2), one iteration of
the rejection loop accepts exactly when the spec says to accept, and
rejects (retries) exactly when the spec says to reject. -/
theorem loopDecide_matches_spec (kappa s u1 u2 : ℝ) (_hk : 0 ≤ kappa) :
    (loopDecide kappa s u1 u2 = some (candidateAngle s u1 u2) ↔
      specAccepts kappa s u1 u2) ∧
    (loopDecide kappa s u1 u2 = none ↔ ¬ specAccepts kappa s u1 u2) := by
  unfold loopDecide specAccepts candidateAngle
  by_cases h1 : |s * (2 * u2 - 1) / u1| > Real.pi
  · rw [if_pos h1]
    have hns : ¬ (|s * (2 * u2 - 1) / u1| ≤ Real.pi ∧
        (kappa * (s * (2 * u2 - 1) / u1) ^ 2 < 4 - 4 * u1 ∨
          2 * Real.log u1 + kappa ≤ kappa * Real.cos (s * (2 * u2 - 1) / u1))) :=
      fun h => absurd h1 (not_lt.2 h.1)
    exact ⟨⟨fun h => Option.noConfusion h, fun h => absurd h hns⟩,
      ⟨fun _ => hns, fun _ => rfl⟩⟩
  · rw [if_neg h1]
    have h1' : |s * (2 * u2 - 1) / u1| ≤ Real.pi := not_lt.1 h1
    by_cases h2 : kappa * (s * (2 * u2 - 1) / u1) ^ 2 < 4 - 4 * u1
    · rw [if_pos h2]
      have hs : |s * (2 * u2 - 1) / u1| ≤ Real.pi ∧
          (kappa * (s * (2 * u2 - 1) / u1) ^ 2 < 4 - 4 * u1 ∨
            2 * Real.log u1 + kappa ≤ kappa * Real.cos (s * (2 * u2 - 1) / u1)) :=
        ⟨h1', Or.inl h2⟩
      exact ⟨⟨fun _ => hs, fun _ => rfl⟩,
        ⟨fun h => Option.noConfusion h, fun h => absurd hs h⟩⟩
    · rw [if_neg h2]
      by_cases h3 : kappa * Real.cos (s * (2 * u2 - 1) / u1) <
          2 * Real.log u1 + kappa
      · rw [if_pos h3]
        have hns : ¬ (|s * (2 * u2 - 1) / u1| ≤ Real.pi ∧
            (kappa * (s * (2 * u2 - 1) / u1) ^ 2 < 4 - 4 * u1 ∨
              2 * Real.log u1 + kappa ≤ kappa * Real.cos (s * (2 * u2 - 1) / u1))) :=
          fun h => h.2.elim (fun hc => h2 hc) (fun hc => absurd h3 (not_lt.2 hc))
        exact ⟨⟨fun h => Option.noConfusion h, fun h => absurd h hns⟩,
          ⟨fun _ => hns, fun _ => rfl⟩⟩
      · rw [if_neg h3]
        have hs : |s * (2 * u2 - 1) / u1| ≤ Real.pi ∧
            (kappa * (s * (2 * u2 - 1) / u1) ^ 2 < 4 - 4 * u1 ∨
              2 * Real.log u1 + kappa ≤ kappa * Real.cos (s * (2 * u2 - 1) / u1)) :=
          ⟨h1', Or.inr (not_lt.1 h3)⟩
        exact ⟨⟨fun _ => hs, fun _ => rfl⟩,
          ⟨fun h => Option.noConfusion h, fun h => absurd hs h⟩⟩

/-- Witness for C1 at kappa = 0, s = 1, u1 = 1, u2 = 1. -/
theorem loopDecide_matches_spec_witness :
    (0 : ℝ) ≤ 0 ∧
      ((loopDecide 0 1 1 1 = some (candidateAngle 1 1 1) ↔
        specAccepts 0 1 1 1) ∧
      (loopDecide 0 1 1 1 = none ↔ ¬ specAccepts 0 1 1 1)) :=
  ⟨le_refl 0, loopDecide_matches_spec 0 1 1 1 (le_refl 0)⟩

/-- C2: for every kappa >= 0, the sampling parameter equals
1 / sqrt kappa when kappa > 1.3 and pi exp (-kappa) otherwise, and in
particular equals pi at kappa = 0. -/
theorem samplingParameter_spec (kappa : ℝ) (_hk : 0 ≤ kappa) :
    (1.3 < kappa → samplingParameter kappa = 1 / Real.sqrt kappa) ∧
    (kappa ≤ 1.3 → samplingParameter kappa = Real.pi * Real.exp (-kappa)) ∧
    samplingParameter 0 = Real.pi := by
  refine ⟨fun h => ?_, fun h => ?_, ?_⟩
  · unfold samplingParameter
    rw [if_pos h]
  · unfold samplingParameter
    rw [if_neg (not_lt.2 h)]
  · unfold samplingParameter
    rw [if_neg (by norm_num)]
    rw [neg_zero, Real.exp_zero, mul_one]

/-- The two-argument arctangent always lands in the half-open interval
(-pi, pi]. -/
theorem atan2_mem_Ioc (y x : ℝ) : atan2 y x ∈ Set.Ioc (-Real.pi) Real.pi :=
  Complex.arg_mem_Ioc _

/-- Emitted samples always land in the half-open interval (-pi, pi]. -/
theorem emit_mem_Ioc (mu a : ℝ) : emit mu a ∈ Set.Ioc (-Real.pi) Real.pi :=
  atan2_mem_Ioc _ _

/-- C4: the emitted value for an accepted angle is the two-argument
arctangent of the sine and cosine of angle + mu; it lies in (-pi, pi] and
differs from angle + mu by an integer multiple of 2 pi, so it is the
accepted proposal shifted by mu and wrapped into the canonical range. -/
theorem emit_recentres (mu a : ℝ) :
    emit mu a = atan2 (Real.sin (a + mu)) (Real.cos (a + mu)) ∧
    emit mu a ∈ Set.Ioc (-Real.pi) Real.pi ∧
    ∃ k : ℤ, emit mu a = (a + mu) - 2 * Real.pi * k := by
  refine ⟨rfl, atan2_mem_Ioc _ _, ?_⟩
  have he : emit mu a =
      Complex.arg (Complex.cos ((a + mu : ℝ) : ℂ) +
        Complex.sin ((a + mu : ℝ) : ℂ) * Complex.I) := by
    unfold emit atan2
    rw [Complex.ofReal_cos, Complex.ofReal_sin]
  have h := Complex.arg_cos_add_sin_mul_I_sub (a + mu)
  refine ⟨-⌊(Real.pi - (a + mu)) / (2 * Real.pi)⌋, ?_⟩
  rw [he, Int.cast_neg]
  linarith

/-- Inversion for one step of the outer sampling loop. -/
theorem sampleMany_succ_inv {mu kappa s : ℝ} {u : ℕ → ℝ} {idx n fuel : ℕ}
    {l : List ℝ} (h : sampleMany mu kappa s u idx (n + 1) fuel = some l) :
    ∃ a idx2 rest, sampleOne kappa s u idx fuel = some (a, idx2) ∧
      sampleMany mu kappa s u idx2 n fuel = some rest ∧
      l = emit mu a :: rest := by
  unfold sampleMany at h
  split at h
  · exact Option.noConfusion h
  · rename_i a idx2 heq
    split at h
    · exact Option.noConfusion h
    · rename_i rest heq2
      injection h with h
      exact ⟨a, idx2, rest, heq, heq2, h.symm⟩

/-- A successful run of the outer loop returns exactly n samples. -/
theorem sampleMany_length {mu kappa s : ℝ} {u : ℕ → ℝ} :
    ∀ {n idx fuel : ℕ} {l : List ℝ},
      sampleMany mu kappa s u idx n fuel = some l → l.length = n := by
  intro n
  induction n with
  | zero =>
    intro idx fuel l h
    unfold sampleMany at h
    injection h with h
    rw [← h]
    rfl
  | succ n ih =>
    intro idx fuel l h
    obtain ⟨a, idx2, rest, -, hrest, hl⟩ := sampleMany_succ_inv h
    rw [hl, List.length_cons, ih hrest]

/-- Every sample returned by the outer loop lies in (-pi, pi]. -/
theorem sampleMany_mem_Ioc {mu kappa s : ℝ} {u : ℕ → ℝ} :
    ∀ {n idx fuel : ℕ} {l : List ℝ},
      sampleMany mu kappa s u idx n fuel = some l →
      ∀ x ∈ l, x ∈ Set.Ioc (-Real.pi) Real.pi := by
  intro n
  induction n with
  | zero =>
    intro idx fuel l h x hx
    unfold sampleMany at h
    injection h with h
    rw [← h] at hx
    exact absurd hx (List.not_mem_nil x)
  | succ n ih =>
    intro idx fuel l h x hx
    obtain ⟨a, idx2, rest, -, hrest, hl⟩ := sampleMany_succ_inv h
    rw [hl] at hx
    rcases List.mem_cons.1 hx with hx | hx
    · rw [hx]; exact emit_mem_Ioc mu a
    · exact ih hrest x hx

/-- C3: for valid inputs, every sample in a successfully returned sequence
lies in the half-open interval (-pi, pi]. -/
theorem sample_range_invariant (mu kappa : ℝ) (numSamples : ℕ)
    (_hmu1 : -Real.pi ≤ mu) (_hmu2 : mu ≤ Real.pi) (_hk : 0 ≤ kappa)
    (_hn : 1 ≤ numSamples) :
    ∀ (u : ℕ → ℝ) (fuel : ℕ) (l : List ℝ),
      sample mu kappa u numSamples fuel = some l →
      ∀ x ∈ l, x ∈ Set.Ioc (-Real.pi) Real.pi := by
  intro u fuel l h
  unfold sample at h
  exact sampleMany_mem_Ioc h

/-- Witness for C2 at kappa = 0. -/
theorem samplingParameter_spec_witness :
    (0 : ℝ) ≤ 0 ∧
      ((1.3 < (0 : ℝ) → samplingParameter 0 = 1 / Real.sqrt 0) ∧
      ((0 : ℝ) ≤ 1.3 → samplingParameter 0 = Real.pi * Real.exp (-0)) ∧
      samplingParameter 0 = Real.pi) :=
  ⟨le_refl 0, samplingParameter_spec 0 (le_refl 0)⟩

/-- The witness stream draws u1 = 1 at even positions. -/
theorem wStream_even (i : ℕ) : wStream (2 * i) = 1 := by
  unfold wStream
  simp [Nat.mul_mod_right]

/-- The witness stream draws u2 = 1/2 at odd positions. -/
theorem wStream_odd (i : ℕ) : wStream (2 * i + 1) = 1 / 2 := by
  unfold wStream
  have h : (2 * i + 1) % 2 = 1 := by omega
  simp [h]

/-- With u1 = 1 and u2 = 1/2 the candidate angle is 0 whatever s is. -/
theorem candidateAngle_w (s : ℝ) : candidateAngle s 1 (1 / 2) = 0 := by
  unfold candidateAngle
  norm_num

/-- At kappa = 0 the loop accepts the draw u1 = 1, u2 = 1/2 at once. -/
theorem loopDecide_w (s : ℝ) : loopDecide 0 s 1 (1 / 2) = some 0 := by
  unfold loopDecide
  rw [candidateAngle_w]
  rw [if_neg (by rw [abs_zero]; exact not_lt.2 Real.pi_pos.le)]
  rw [if_neg (by norm_num)]
  rw [if_neg (by norm_num [Real.log_one])]

/-- On the witness stream the rejection loop accepts in one iteration. -/
theorem sampleOne_w (s : ℝ) (i : ℕ) :
    sampleOne 0 s wStream (2 * i) 1 = some (0, 2 * i + 2) := by
  show sampleOne 0 s wStream (2 * i) (0 + 1) = some (0, 2 * i + 2)
  unfold sampleOne
  rw [wStream_even, wStream_odd, loopDecide_w]

/-- Wrapping the zero angle with mean zero emits the sample 0. -/
theorem emit_w : emit 0 0 = 0 := by
  unfold emit atan2
  norm_num [Real.cos_zero, Real.sin_zero, Complex.arg_one]

/-- On the witness stream the outer loop returns n zero samples. -/
theorem sampleMany_w (s : ℝ) : ∀ n i : ℕ,
    sampleMany 0 0 s wStream (2 * i) n 1 = some (List.replicate n 0) := by
  intro n
  induction n with
  | zero => intro i; rfl
  | succ n ih =>
    intro i
    unfold sampleMany
    rw [sampleOne_w]
    dsimp only
    rw [show 2 * i + 2 = 2 * (i + 1) by ring, ih (i + 1)]
    dsimp only
    rw [emit_w]
    rfl

/-- A complete accepting run at mu = 0, kappa = 0 on the witness stream. -/
theorem sample_w (n : ℕ) : sample 0 0 wStream n 1 = some (List.replicate n 0) := by
  unfold sample
  have h := sampleMany_w (samplingParameter 0) n 0
  rw [Nat.mul_zero] at h
  exact h

/-- Witness for C3: the valid call mu = 0, kappa = 0, numSamples = 1
succeeds on the witness stream and its output [0] lies in (-pi, pi]. -/
theorem sample_range_invariant_witness :
    (-Real.pi ≤ (0 : ℝ)) ∧ ((0 : ℝ) ≤ Real.pi) ∧ ((0 : ℝ) ≤ (0 : ℝ)) ∧
      (1 ≤ 1) ∧ sample 0 0 wStream 1 1 = some [0] ∧
      (∀ x ∈ [(0 : ℝ)], x ∈ Set.Ioc (-Real.pi) Real.pi) :=
  ⟨neg_nonpos.2 Real.pi_pos.le, Real.pi_pos.le, le_refl 0, le_refl 1,
    sample_w 1,
    sample_range_invariant 0 0 1 (neg_nonpos.2 Real.pi_pos.le) Real.pi_pos.le
      (le_refl 0) (le_refl 1) wStream 1 [0] (sample_w 1)⟩

/-- C7: every successful run of a valid call returns exactly numSamples
values, and an omitted count argument defaults to numSamples = 1. -/
theorem sample_output_length (mu kappa : ℝ) (numSamples : ℕ)
    (_hmu1 : -Real.pi ≤ mu) (_hmu2 : mu ≤ Real.pi) (_hk : 0 ≤ kappa)
    (_hn : 1 ≤ numSamples) :
    (∀ (u : ℕ → ℝ) (fuel : ℕ) (l : List ℝ),
      sample mu kappa u numSamples fuel = some l → l.length = numSamples) ∧
    checkNumSamples none = Except.ok 1 := by
  refine ⟨fun u fuel l h => ?_, rfl⟩
  unfold sample at h
  exact sampleMany_length h

/-- Witness for C7 at mu = 0, kappa = 0, numSamples = 7: the witness
stream run returns exactly 7 values. -/
theorem sample_output_length_witness :
    (-Real.pi ≤ (0 : ℝ)) ∧ ((0 : ℝ) ≤ Real.pi) ∧ ((0 : ℝ) ≤ (0 : ℝ)) ∧
      (1 ≤ 7) ∧ (List.replicate 7 (0 : ℝ)).length = 7 :=
  ⟨neg_nonpos.2 Real.pi_pos.le, Real.pi_pos.le, le_refl 0, by norm_num,
    (sample_output_length 0 0 7 (neg_nonpos.2 Real.pi_pos.le) Real.pi_pos.le
      (le_refl 0) (by norm_num)).1 wStream 1 (List.replicate 7 0) (sample_w 7)⟩

/-- C9: with the random source fixed by an explicit seed, two invocations
with identical mu, kappa and numSamples produce identical outputs. -/
theorem generateSeeded_deterministic (gen : ℕ → ℕ → ℝ) (seed1 seed2 : ℕ)
    (mu kappa : ℝ) (numSamples fuel : ℕ) (h : seed1 = seed2) :
    generateSeeded gen seed1 mu kappa numSamples fuel =
      generateSeeded gen seed2 mu kappa numSamples fuel := by
  rw [h]

/-- Witness for C9 at a concrete generator and seed. -/
theorem generateSeeded_deterministic_witness :
    (0 : ℕ) = 0 ∧
      generateSeeded (fun _ _ => 0) 0 0 0 1 1 =
        generateSeeded (fun _ _ => 0) 0 0 0 1 1 :=
  ⟨rfl, generateSeeded_deterministic (fun _ _ => 0) 0 0 0 0 1 1 rfl⟩

/-- C5 fails on the code: rand() ranges over 0..RAND_MAX, so it can
return 0, and then the uniform draw u1 = 0 / RAND_MAX used as the divisor
is exactly zero whatever RAND_MAX is. -/
theorem u1_zero_is_possible (RMAX : ℕ) : toUniform 0 RMAX = 0 := by
  unfold toUniform
  simp

/-- C6 as stated fails: a count argument of 1/2 is below 1, yet the call
passes validation and returns an empty output sequence instead of failing
with an InvalidParameter error. -/
theorem count_below_one_not_rejected :
    mexFunction 0 1 (some (1 / 2)) (fun _ => 0) 0 = Except.ok (some []) ∧
      (1 / 2 : ℝ) < 1 := by
  constructor
  · have hc : checkNumSamples (some (1 / 2)) = Except.ok 0 := by
      unfold checkNumSamples
      dsimp only
      rw [if_neg (by norm_num)]
      norm_num [Nat.floor_eq_zero]
    unfold mexFunction
    rw [if_neg (not_or.2 ⟨not_lt.2 (neg_nonpos.2 Real.pi_pos.le),
        not_lt.2 Real.pi_pos.le⟩), if_neg (by norm_num), hc]
    rfl
  · norm_num

/-- C6 amended: a call fails with an InvalidParameter error iff mu lies
outside [-pi, pi], kappa is negative, or a count argument is supplied
with value at most 0 (an omitted count defaults to 1 and never fails);
the count check compares the raw value to 0, so values in (0, 1) pass. -/
theorem mexFunction_validation (mu kappa : ℝ) (count : Option ℝ)
    (u : ℕ → ℝ) (fuel : ℕ) :
    (∃ e, mexFunction mu kappa count u fuel = Except.error e) ↔
      (mu < -Real.pi ∨ mu > Real.pi ∨ kappa < 0 ∨
        ∃ c, count = some c ∧ c ≤ 0) := by
  unfold mexFunction
  by_cases h1 : mu < -Real.pi ∨ mu > Real.pi
  · simp only [if_pos h1]
    constructor
    · intro _
      exact h1.elim Or.inl (fun h => Or.inr (Or.inl h))
    · intro _
      exact ⟨MexError.notScalar, rfl⟩
  · simp only [if_neg h1]
    rw [not_or] at h1
    by_cases h2 : kappa < 0
    · simp only [if_pos h2]
      constructor
      · intro _
        exact Or.inr (Or.inr (Or.inl h2))
      · intro _
        exact ⟨MexError.notRealPositiveScalar, rfl⟩
    · simp only [if_neg h2]
      cases count with
      | none =>
        constructor
        · rintro ⟨e, he⟩
          exact Except.noConfusion he
        · rintro (h | h | h | ⟨c, hc, -⟩)
          · exact absurd h h1.1
          · exact absurd h h1.2
          · exact absurd h h2
          · exact Option.noConfusion hc
      | some c =>
        by_cases h3 : c ≤ 0
        · have hcs : checkNumSamples (some c) =
              Except.error MexError.notIntPositiveScalar := by
            unfold checkNumSamples
            dsimp only
            rw [if_pos h3]
          simp only [hcs]
          constructor
          · intro _
            exact Or.inr (Or.inr (Or.inr ⟨c, rfl, h3⟩))
          · intro _
            exact ⟨MexError.notIntPositiveScalar, rfl⟩
        · have hcs : checkNumSamples (some c) = Except.ok ⌊c⌋₊ := by
            unfold checkNumSamples
            dsimp only
            rw [if_neg h3]
          simp only [hcs]
          constructor
          · rintro ⟨e, he⟩
            exact Except.noConfusion he
          · rintro (h | h | h | ⟨c2, hc2, hle⟩)
            · exact absurd h h1.1
            · exact absurd h h1.2
            · exact absurd h h2
            · injection hc2 with hc2
              exact absurd (hc2 ▸ hle) h3

/-- C8: a positive count value passes validation even when it is not an
integer; the number of samples requested is its truncation, a successful
run returns that many values, and a count strictly between 0 and 1 yields
an empty output sequence. -/
theorem count_truncates (mu kappa c : ℝ) (hmu1 : -Real.pi ≤ mu)
    (hmu2 : mu ≤ Real.pi) (hk : 0 ≤ kappa) (hc : 0 < c) :
    checkNumSamples (some c) = Except.ok ⌊c⌋₊ ∧
    (∀ (u : ℕ → ℝ) (fuel : ℕ) (l : List ℝ),
      sample mu kappa u ⌊c⌋₊ fuel = some l → l.length = ⌊c⌋₊) ∧
    (c < 1 → ∀ (u : ℕ → ℝ) (fuel : ℕ),
      mexFunction mu kappa (some c) u fuel = Except.ok (some [])) := by
  refine ⟨?_, fun u fuel l h => ?_, fun hc1 u fuel => ?_⟩
  · unfold checkNumSamples
    dsimp only
    rw [if_neg (not_le.2 hc)]
  · unfold sample at h
    exact sampleMany_length h
  · have hcs : checkNumSamples (some c) = Except.ok 0 := by
      unfold checkNumSamples
      dsimp only
      rw [if_neg (not_le.2 hc), Nat.floor_eq_zero.2 hc1]
    unfold mexFunction
    rw [if_neg (not_or.2 ⟨not_lt.2 hmu1, not_lt.2 hmu2⟩),
      if_neg (not_lt.2 hk), hcs]
    rfl

/-- Witness for C8 at mu = 0, kappa = 0, c = 1/2. -/
theorem count_truncates_witness :
    (-Real.pi ≤ (0 : ℝ)) ∧ ((0 : ℝ) ≤ Real.pi) ∧ ((0 : ℝ) ≤ (0 : ℝ)) ∧
      (0 < (1 / 2 : ℝ)) ∧
      (checkNumSamples (some (1 / 2)) = Except.ok ⌊(1 / 2 : ℝ)⌋₊ ∧
      (∀ (u : ℕ → ℝ) (fuel : ℕ) (l : List ℝ),
        sample 0 0 u ⌊(1 / 2 : ℝ)⌋₊ fuel = some l →
          l.length = ⌊(1 / 2 : ℝ)⌋₊) ∧
      ((1 / 2 : ℝ) < 1 → ∀ (u : ℕ → ℝ) (fuel : ℕ),
        mexFunction 0 0 (some (1 / 2)) u fuel = Except.ok (some []))) :=
  ⟨neg_nonpos.2 Real.pi_pos.le, Real.pi_pos.le, le_refl 0, by norm_num,
    count_truncates 0 0 (1 / 2) (neg_nonpos.2 Real.pi_pos.le)
      Real.pi_pos.le (le_refl 0) (by norm_num)⟩

/-- The rejection loop fails to accept within its fuel exactly when every
iteration it performs rejects its pair of draws. -/
theorem sampleOne_none_iff (kappa s : ℝ) (u : ℕ → ℝ) :
    ∀ fuel idx : ℕ, sampleOne kappa s u idx fuel = none ↔
      ∀ i, i < fuel →
        loopDecide kappa s (u (idx + 2 * i)) (u (idx + 2 * i + 1)) = none := by
  intro fuel
  induction fuel with
  | zero =>
    intro idx
    constructor
    · intro _ i hi
      exact absurd hi (Nat.not_lt_zero i)
    · intro _
      rfl
  | succ fuel ih =>
    intro idx
    unfold sampleOne
    cases hld : loopDecide kappa s (u idx) (u (idx + 1)) with
    | some a =>
      dsimp only
      constructor
      · intro h
        exact Option.noConfusion h
      · intro h
        have h0 := h 0 (Nat.succ_pos fuel)
        rw [Nat.mul_zero, Nat.add_zero] at h0
        rw [h0] at hld
        exact Option.noConfusion hld
    | none =>
      dsimp only
      rw [ih (idx + 2)]
      constructor
      · intro h i hi
        cases i with
        | zero =>
          rw [Nat.mul_zero, Nat.add_zero]
          exact hld
        | succ i =>
          have hh := h i (Nat.lt_of_succ_lt_succ hi)
          have e1 : idx + 2 + 2 * i = idx + 2 * (i + 1) := by ring
          rw [e1] at hh
          exact hh
      · intro h i hi
        have hh := h (i + 1) (Nat.succ_lt_succ hi)
        have e1 : idx + 2 * (i + 1) = idx + 2 + 2 * i := by ring
        rw [e1] at hh
        exact hh

/-- Reading the first coordinate of pair i from the packed stream. -/
theorem streamOf_even {n RMAX : ℕ} (f : Fin n → Fin (RMAX + 1) × Fin (RMAX + 1))
    (i : ℕ) (h : i < n) : streamOf f (2 * i) = toUniform (f ⟨i, h⟩).1 RMAX := by
  unfold streamOf
  have h1 : 2 * i / 2 = i := by omega
  have h2 : 2 * i % 2 = 0 := by omega
  simp only [h1, h2]
  rw [dif_pos h]
  simp

/-- Reading the second coordinate of pair i from the packed stream. -/
theorem streamOf_odd {n RMAX : ℕ} (f : Fin n → Fin (RMAX + 1) × Fin (RMAX + 1))
    (i : ℕ) (h : i < n) :
    streamOf f (2 * i + 1) = toUniform (f ⟨i, h⟩).2 RMAX := by
  unfold streamOf
  have h1 : (2 * i + 1) / 2 = i := by omega
  have h2 : (2 * i + 1) % 2 = 1 := by omega
  simp only [h1, h2]
  rw [dif_pos h]
  simp

/-- If the loop has not accepted after n iterations on a packed prefix of
rand pairs, then every pair of the prefix is a rejecting pair. -/
theorem sampleOne_none_mem_rejPrefixes (kappa s : ℝ) (RMAX n : ℕ)
    (f : Fin n → Fin (RMAX + 1) × Fin (RMAX + 1))
    (h : sampleOne kappa s (streamOf f) 0 n = none) :
    f ∈ rejPrefixes kappa s RMAX n := by
  unfold rejPrefixes
  rw [Fintype.mem_piFinset]
  intro i
  have hall := (sampleOne_none_iff kappa s (streamOf f) n 0).1 h i.1 i.2
  rw [Nat.zero_add] at hall
  unfold rejPairs
  rw [Finset.mem_filter]
  refine ⟨Finset.mem_univ _, ?_⟩
  rw [← streamOf_even f i.1 i.2, ← streamOf_odd f i.1 i.2]
  exact hall

/-- The sampling parameter is positive for kappa >= 0. -/
theorem samplingParameter_pos (kappa : ℝ) (_hk : 0 ≤ kappa) :
    0 < samplingParameter kappa := by
  unfold samplingParameter
  by_cases h : kappa > 1.3
  · rw [if_pos h]
    exact one_div_pos.2 (Real.sqrt_pos.2 (by linarith))
  · rw [if_neg h]
    exact mul_pos Real.pi_pos (Real.exp_pos _)

/-- The sampling parameter is at most 4 for kappa >= 0. -/
theorem samplingParameter_le_four (kappa : ℝ) (hk : 0 ≤ kappa) :
    samplingParameter kappa ≤ 4 := by
  unfold samplingParameter
  by_cases h : kappa > 1.3
  · rw [if_pos h]
    have h1 : (1 : ℝ) ≤ Real.sqrt kappa := by
      rw [Real.le_sqrt (by norm_num) (by linarith)]
      nlinarith
    have h2 := (div_le_one (Real.sqrt_pos.2 (by linarith : (0:ℝ) < kappa))).2 h1
    linarith
  · rw [if_neg h]
    have he : Real.exp (-kappa) ≤ 1 := Real.exp_le_one_iff.2 (by linarith)
    nlinarith [Real.pi_pos, Real.pi_le_four, Real.exp_pos (-kappa)]

/-- kappa times the squared sampling parameter is at most 21 whenever
kappa >= 0. -/
theorem kappa_mul_sq_samplingParameter_le (kappa : ℝ) (hk : 0 ≤ kappa) :
    kappa * samplingParameter kappa ^ 2 ≤ 21 := by
  unfold samplingParameter
  by_cases h : kappa > 1.3
  · rw [if_pos h]
    have hpos : (0 : ℝ) < kappa := by linarith
    rw [div_pow, one_pow, Real.sq_sqrt hk, mul_one_div,
      div_self (ne_of_gt hpos)]
    norm_num
  · rw [if_neg h]
    push_neg at h
    have he : Real.exp (-kappa) ≤ 1 := Real.exp_le_one_iff.2 (by linarith)
    have hep : 0 < Real.exp (-kappa) := Real.exp_pos _
    have hp1 : Real.pi ^ 2 ≤ 16 := by
      nlinarith [Real.pi_pos, Real.pi_le_four]
    have hp2 : Real.exp (-kappa) ^ 2 ≤ 1 := by nlinarith
    have hp3 : (Real.pi * Real.exp (-kappa)) ^ 2 ≤ 16 := by
      rw [mul_pow]
      calc Real.pi ^ 2 * Real.exp (-kappa) ^ 2
          ≤ 16 * Real.exp (-kappa) ^ 2 :=
            mul_le_mul_of_nonneg_right hp1 (sq_nonneg _)
        _ ≤ 16 * 1 := mul_le_mul_of_nonneg_left hp2 (by norm_num)
        _ = 16 := mul_one _
    calc kappa * (Real.pi * Real.exp (-kappa)) ^ 2
        ≤ 1.3 * 16 := mul_le_mul h hp3 (sq_nonneg _) (by norm_num)
      _ ≤ 21 := by norm_num

/-- For every kappa >= 0 and RAND_MAX at least its C-guaranteed minimum
32767, the rand pair (RAND_MAX/2, RAND_MAX/2) (integer division) gives
uniforms u1 = u2 close to 1/2 whose candidate angle passes the fast
quadratic test, so one iteration of the loop accepts it. -/
theorem exists_accepting_pair (kappa : ℝ) (hk : 0 ≤ kappa) (RMAX : ℕ)
    (hR : 32767 ≤ RMAX) :
    loopDecide kappa (samplingParameter kappa) (toUniform (RMAX / 2) RMAX)
      (toUniform (RMAX / 2) RMAX) ≠ none := by
  have hs_pos := samplingParameter_pos kappa hk
  have hs4 := samplingParameter_le_four kappa hk
  have hks := kappa_mul_sq_samplingParameter_le kappa hk
  set s : ℝ := samplingParameter kappa with hs_def
  have hn1 : RMAX / 2 * 2 ≤ RMAX := Nat.div_mul_le_self RMAX 2
  have hn2 : RMAX ≤ RMAX / 2 * 2 + 1 := by omega
  have hc1 : ((RMAX / 2 : ℕ) : ℝ) * 2 ≤ (RMAX : ℝ) := by exact_mod_cast hn1
  have hc2 : (RMAX : ℝ) ≤ ((RMAX / 2 : ℕ) : ℝ) * 2 + 1 := by exact_mod_cast hn2
  have hRbig : (32767 : ℝ) ≤ (RMAX : ℝ) := by exact_mod_cast hR
  set Rr : ℝ := (RMAX : ℝ) with hR_def
  set rr : ℝ := ((RMAX / 2 : ℕ) : ℝ) with hr_def
  have hRpos : (0 : ℝ) < Rr := by linarith
  set u : ℝ := rr / Rr with hu_def
  have hu_lb : 1 / 4 ≤ u := by
    rw [hu_def, le_div_iff hRpos]
    linarith
  have hu_ub : u ≤ 1 / 2 := by
    rw [hu_def, div_le_iff hRpos]
    linarith
  have hu_pos : 0 < u := lt_of_lt_of_le (by norm_num) hu_lb
  have hdiv_eq : 2 * (rr / Rr) = 2 * rr / Rr := by ring
  have hd_lb : -(1 / Rr) ≤ 2 * u - 1 := by
    rw [hu_def]
    have hcomp := (div_le_div_right hRpos).2 (by linarith : Rr - 1 ≤ 2 * rr)
    have he : (Rr - 1) / Rr = 1 - 1 / Rr := by field_simp
    rw [he] at hcomp
    linarith [hdiv_eq]
  have hd_ub : 2 * u - 1 ≤ 0 := by linarith
  have hd_abs : |2 * u - 1| ≤ 1 / Rr := by
    rw [abs_le]
    exact ⟨hd_lb, le_trans hd_ub (by positivity)⟩
  set a : ℝ := candidateAngle s u u with ha_def
  have ha_eq : a = s * (2 * u - 1) / u := rfl
  have ha_abs : |a| ≤ 4 * s / Rr := by
    rw [ha_eq, abs_div, abs_mul, abs_of_pos hs_pos, abs_of_pos hu_pos]
    have h1 : s * |2 * u - 1| ≤ s * (1 / Rr) :=
      mul_le_mul_of_nonneg_left hd_abs hs_pos.le
    have h2 : s * |2 * u - 1| / u ≤ s * (1 / Rr) / (1 / 4) :=
      div_le_div (by positivity) h1 (by norm_num) hu_lb
    have h3 : s * (1 / Rr) / (1 / 4) = 4 * s / Rr := by
      field_simp
      ring
    rw [h3] at h2
    exact h2
  have h16 : 4 * s / Rr ≤ 16 / Rr := (div_le_div_right hRpos).2 (by linarith)
  have h161 : (16 : ℝ) / Rr ≤ 1 := (div_le_one hRpos).2 (by linarith)
  have ha_small : |a| ≤ 1 := le_trans ha_abs (le_trans h16 h161)
  have hC1 : ¬ (|a| > Real.pi) :=
    not_lt.2 (le_trans ha_small (by linarith [Real.pi_gt_three]))
  have ha2 : a ^ 2 ≤ 16 * s ^ 2 / Rr ^ 2 := by
    have hpow := pow_le_pow_left (abs_nonneg a) ha_abs 2
    rw [sq_abs] at hpow
    calc a ^ 2 ≤ (4 * s / Rr) ^ 2 := hpow
      _ = 16 * s ^ 2 / Rr ^ 2 := by
          rw [div_pow]
          congr 1
          ring
  have hka2 : kappa * a ^ 2 ≤ 336 / Rr ^ 2 := by
    have h1 : kappa * a ^ 2 ≤ kappa * (16 * s ^ 2 / Rr ^ 2) :=
      mul_le_mul_of_nonneg_left ha2 hk
    have h2 : kappa * (16 * s ^ 2 / Rr ^ 2) = 16 * (kappa * s ^ 2) / Rr ^ 2 := by
      ring
    have h3 : 16 * (kappa * s ^ 2) / Rr ^ 2 ≤ 336 / Rr ^ 2 :=
      (div_le_div_right (by positivity)).2 (by linarith)
    linarith
  have hsq : (32767 : ℝ) * 32767 ≤ Rr * Rr :=
    mul_le_mul hRbig hRbig (by norm_num) (by linarith)
  have hsmall2 : (336 : ℝ) / Rr ^ 2 < 2 := by
    rw [div_lt_iff (by positivity)]
    nlinarith [hsq]
  have hC2 : kappa * a ^ 2 < 4 - 4 * u := by
    have hrhs : (2 : ℝ) ≤ 4 - 4 * u := by linarith
    linarith
  rw [show toUniform (RMAX / 2) RMAX = u from rfl]
  unfold loopDecide
  rw [← ha_def, if_neg hC1, if_pos hC2]
  exact fun hcon => Option.noConfusion hcon

/-- For kappa >= 0 and realistic RAND_MAX there are strictly fewer
rejecting rand pairs than rand pairs. -/
theorem rejPairs_card_lt (kappa : ℝ) (hk : 0 ≤ kappa) (RMAX : ℕ)
    (hR : 32767 ≤ RMAX) :
    (rejPairs kappa (samplingParameter kappa) RMAX).card < (RMAX + 1) ^ 2 := by
  have hlt : RMAX / 2 < RMAX + 1 := by omega
  have hnot : ((⟨RMAX / 2, hlt⟩, ⟨RMAX / 2, hlt⟩) :
      Fin (RMAX + 1) × Fin (RMAX + 1)) ∉
      rejPairs kappa (samplingParameter kappa) RMAX := by
    unfold rejPairs
    rw [Finset.mem_filter]
    rintro ⟨-, hmem⟩
    exact exists_accepting_pair kappa hk RMAX hR hmem
  have hss : rejPairs kappa (samplingParameter kappa) RMAX ⊂ Finset.univ :=
    (Finset.ssubset_iff_of_subset (Finset.subset_univ _)).2
      ⟨_, Finset.mem_univ _, hnot⟩
  have hcard := Finset.card_lt_card hss
  rw [Finset.card_univ, Fintype.card_prod, Fintype.card_fin] at hcard
  rw [pow_two]
  exact hcard

/-- C10: the rejection loop has no failure outcome (each iteration either
accepts or retries), and it always eventually accepts with probability 1
in finite expected time: in the discrete model of the C rand source
(uniform pairs on 0..RAND_MAX with RAND_MAX at least the C-guaranteed
32767), not having accepted after n iterations forces an all-rejecting
draw prefix, the probability of that event tends to 0 as n grows, and the
tail probabilities sum to a finite value, so the expected number of
iterations is finite; no iteration cap appears anywhere in the model. -/
theorem rejection_loop_terminates (kappa : ℝ) (hk : 0 ≤ kappa) (RMAX : ℕ)
    (hR : 32767 ≤ RMAX) :
    (∀ (n : ℕ) (f : Fin n → Fin (RMAX + 1) × Fin (RMAX + 1)),
      sampleOne kappa (samplingParameter kappa) (streamOf f) 0 n = none →
        f ∈ rejPrefixes kappa (samplingParameter kappa) RMAX n) ∧
    Tendsto (fun n => noAcceptFrac kappa (samplingParameter kappa) RMAX n)
      atTop (nhds 0) ∧
    Summable (fun n => noAcceptFrac kappa (samplingParameter kappa) RMAX n) := by
  have hcard := rejPairs_card_lt kappa hk RMAX hR
  set q : ℝ := ((rejPairs kappa (samplingParameter kappa) RMAX).card : ℝ) /
    ((RMAX + 1 : ℝ) ^ 2) with hq_def
  have hbase_pos : (0 : ℝ) < (RMAX + 1 : ℝ) ^ 2 := by positivity
  have hq0 : 0 ≤ q := by
    rw [hq_def]
    positivity
  have hq1 : q < 1 := by
    rw [hq_def, div_lt_one hbase_pos]
    exact_mod_cast hcard
  have hfrac : ∀ n, noAcceptFrac kappa (samplingParameter kappa) RMAX n = q ^ n := by
    intro n
    unfold noAcceptFrac rejPrefixes
    rw [Fintype.card_piFinset_const, hq_def, div_pow, pow_mul]
    push_cast
    rfl
  refine ⟨fun n f => sampleOne_none_mem_rejPrefixes kappa
    (samplingParameter kappa) RMAX n f, ?_, ?_⟩
  · rw [funext hfrac]
    exact tendsto_pow_atTop_nhds_zero_of_lt_one hq0 hq1
  · rw [funext hfrac]
    exact summable_geometric_of_lt_one hq0 hq1

/-- Witness for C10 at kappa = 0 and RAND_MAX = 32767. -/
theorem rejection_loop_terminates_witness :
    ((0 : ℝ) ≤ 0) ∧ (32767 ≤ 32767) ∧
      ((∀ (n : ℕ) (f : Fin n → Fin (32767 + 1) × Fin (32767 + 1)),
        sampleOne 0 (samplingParameter 0) (streamOf f) 0 n = none →
          f ∈ rejPrefixes 0 (samplingParameter 0) 32767 n) ∧
      Tendsto (fun n => noAcceptFrac 0 (samplingParameter 0) 32767 n)
        atTop (nhds 0) ∧
      Summable (fun n => noAcceptFrac 0 (samplingParameter 0) 32767 n)) :=
  ⟨le_refl 0, le_refl 32767,
    rejection_loop_terminates 0 (le_refl 0) 32767 (le_refl 32767)⟩

end
